import Mathlib

/-!
Shallow embedding of the elliptic-curve core of `src/main.rs`.

Rust `i64` arithmetic is modelled by `Int`; the Rust `%` and `/` operators
on `i64` are truncated (`Int.tmod`, `Int.tdiv`).  The `Point` struct with
`Option<i64>` coordinates becomes a structure with `Option Int` fields.
The recursive `extended_gcd` helper is embedded with an explicit fuel
argument (so that it is structurally recursive and evaluates inside the
kernel); `extended_gcd_eq` proves the exact recurrence of the source, and
the fuel `|a| + 1` is always sufficient because `|b % a| < |a|` at every
recursive call.
-/

/-- Mirrors the Rust struct `Point`: optional affine coordinates (`None`
encodes the point at infinity) plus the curve parameters `a`, `b`, `p`. -/
structure Point where
  x : Option Int
  y : Option Int
  a : Int
  b : Int
  p : Int
deriving DecidableEq

/-- Mirrors `Point::new`: stores `x % p` and `y % p`, where `%` is the
truncated remainder of Rust (`Int.tmod`). -/
def Point.new (x y a b p : Int) : Point :=
  ⟨some (x.tmod p), some (y.tmod p), a, b, p⟩

/-- Mirrors `Point::infinity`: no coordinates, same curve parameters. -/
def Point.infinity (a b p : Int) : Point :=
  ⟨none, none, a, b, p⟩

/-- Fuel-indexed version of the inner `extended_gcd` recursion of
`Point::mod_inverse`.  The fuel only makes the recursion structural; the
value at fuel `0` is never used with adequate fuel (see `egcdFuel_eq`). -/
def egcdFuel : Nat → Int → Int → Int × Int × Int
  | 0, _, b => (b, 0, 1)
  | n + 1, a, b =>
    if a = 0 then (b, 0, 1)
    else
      let r := egcdFuel n (b.tmod a) a
      (r.1, r.2.2 - (b.tdiv a) * r.2.1, r.2.1)

/-- Mirrors the Rust `extended_gcd(a, b)` returning `(gcd, x, y)`. -/
def extended_gcd (a b : Int) : Int × Int × Int :=
  egcdFuel (a.natAbs + 1) a b

/-- The magnitude of a truncated remainder is the remainder of the
magnitudes. -/
theorem natAbs_tmod (a b : Int) : (Int.tmod a b).natAbs = a.natAbs % b.natAbs := by
  cases a with
  | ofNat m =>
    cases b with
    | ofNat n => rfl
    | negSucc n => rfl
  | negSucc m =>
    cases b with
    | ofNat n =>
      show (-(Int.ofNat (m.succ % n))).natAbs = m.succ % n
      rw [Int.natAbs_neg]
      rfl
    | negSucc n =>
      show (-(Int.ofNat (m.succ % n.succ))).natAbs = m.succ % n.succ
      rw [Int.natAbs_neg]
      rfl

/-- Each recursive call of `extended_gcd` strictly decreases `|a|`. -/
theorem natAbs_tmod_lt (a b : Int) (h : a ≠ 0) : (Int.tmod b a).natAbs < a.natAbs := by
  rw [natAbs_tmod]
  exact Nat.mod_lt _ (Int.natAbs_pos.mpr h)

/-- Any fuel exceeding `|a|` computes the same value of `egcdFuel`. -/
theorem egcdFuel_eq (n m : Nat) (a b : Int) (hn : a.natAbs < n) (hm : a.natAbs < m) :
    egcdFuel n a b = egcdFuel m a b := by
  induction n generalizing m a b with
  | zero => omega
  | succ k ih =>
    cases m with
    | zero => omega
    | succ j =>
      by_cases h : a = 0
      · simp [egcdFuel, h]
      · have hlt := natAbs_tmod_lt a b h
        simp only [egcdFuel, h, if_false]
        rw [ih j (b.tmod a) a (by omega) (by omega)]

/-- One-step unfolding of `egcdFuel` at positive fuel. -/
theorem egcdFuel_succ (n : Nat) (a b : Int) :
    egcdFuel (n + 1) a b =
      if a = 0 then (b, 0, 1)
      else
        let r := egcdFuel n (b.tmod a) a
        (r.1, r.2.2 - (b.tdiv a) * r.2.1, r.2.1) := rfl

/-- `extended_gcd` satisfies exactly the recurrence of the Rust source. -/
theorem extended_gcd_eq (a b : Int) :
    extended_gcd a b =
      if a = 0 then (b, 0, 1)
      else
        let r := extended_gcd (b.tmod a) a
        (r.1, r.2.2 - (b.tdiv a) * r.2.1, r.2.1) := by
  show egcdFuel (a.natAbs + 1) a b = _
  rw [egcdFuel_succ]
  by_cases h : a = 0
  · simp [h]
  · have hlt := natAbs_tmod_lt a b h
    simp only [h, if_false]
    rw [egcdFuel_eq a.natAbs ((b.tmod a).natAbs + 1) (b.tmod a) a (by omega) (by omega)]
    rfl

/-- Mirrors `Point::mod_inverse(a, p) = (x % p + p) % p` where `x` is the
second component of `extended_gcd(a, p)`. -/
def Point.mod_inverse (a p : Int) : Int :=
  ((extended_gcd a p).2.1.tmod p + p).tmod p

/-- The body of the addition law once all four coordinates have been
unwrapped: the reflection case, the tangent (doubling) slope, the chord
slope, and the normalized output coordinates, exactly as in the source. -/
def Point.addCore (x1 y1 x2 y2 a b p : Int) : Point :=
  if x1 = x2 ∧ (y1 + y2).tmod p = 0 then Point.infinity a b p
  else
    let lam :=
      if x1 = x2 ∧ y1 = y2 then
        ((3 * x1 * x1 + a) * Point.mod_inverse (2 * y1) p).tmod p
      else
        ((y2 - y1) * Point.mod_inverse (x2 - x1) p).tmod p
    let x3 := ((lam * lam - x1 - x2).tmod p + p).tmod p
    let y3 := ((lam * (x1 - x3) - y1).tmod p + p).tmod p
    Point.new x3 y3 a b p

/-- Mirrors `impl Add for Point`.  The two `is_none` early returns match the
source; the `y` coordinates are then unwrapped (`Option.getD 0` here; the
Rust `unwrap` panics on `None`, and `Point.addChecked` below models that
panic faithfully — `addChecked_eq_add` shows the two agree whenever no
panic can occur). -/
def Point.add (self other : Point) : Point :=
  match self.x with
  | none => other
  | some x1 =>
    match other.x with
    | none => self
    | some x2 =>
      Point.addCore x1 (self.y.getD 0) x2 (other.y.getD 0) self.a self.b self.p

/-- Panic-aware model of `impl Add for Point`: returns `none` exactly when
one of the `unwrap` calls of the source would panic. -/
def Point.addChecked (self other : Point) : Option Point :=
  match self.x with
  | none => some other
  | some x1 =>
    match other.x with
    | none => some self
    | some x2 =>
      match self.y, other.y with
      | some y1, some y2 => some (Point.addCore x1 y1 x2 y2 self.a self.b self.p)
      | _, _ => none

/-- The argument that `add` passes to `mod_inverse`, following the exact
branch structure of the source: `none` when no inverse is computed (early
returns and the reflection case), `some (2*y1)` in the doubling branch and
`some (x2 - x1)` in the general branch. -/
def Point.addDivisor (self other : Point) : Option Int :=
  match self.x with
  | none => none
  | some x1 =>
    match other.x with
    | none => none
    | some x2 =>
      let y1 := self.y.getD 0
      let y2 := other.y.getD 0
      if x1 = x2 ∧ (y1 + y2).tmod self.p = 0 then none
      else if x1 = x2 ∧ y1 = y2 then some (2 * y1)
      else some (x2 - x1)

/-- Mirrors `find_points`: for `x` in `0..p` compute
`rhs = (x*x*x + a*x + b) % p` and keep each `y` in `0..p` with
`(y*y) % p == rhs`. -/
def find_points (a b p : Int) : List Point :=
  (List.range p.toNat).flatMap fun (xn : Nat) =>
    (List.range p.toNat).filterMap fun (yn : Nat) =>
      if ((yn : Int) * (yn : Int)).tmod p =
          ((xn : Int) * (xn : Int) * (xn : Int) + a * (xn : Int) + b).tmod p then
        some (Point.new (xn : Int) (yn : Int) a b p)
      else
        none

/-!  Basic predicates on points and range lemmas for truncated remainders. -/

/-- The point is affine with both coordinates normalized into `[0, p)`
where `p` is its own modulus field. -/
def Point.affNorm (P : Point) : Prop :=
  ∃ xv yv : Int, P.x = some xv ∧ P.y = some yv ∧
    0 ≤ xv ∧ xv < P.p ∧ 0 ≤ yv ∧ yv < P.p

/-- The `x` and `y` fields are either both `some` or both `none`. -/
def Point.coherent (P : Point) : Prop :=
  P.x.isSome = P.y.isSome

/-- Strict lexicographic order on the affine coordinates of two points. -/
def ptKeyLt (P Q : Point) : Prop :=
  ∃ x1 y1 x2 y2 : Int, P.x = some x1 ∧ P.y = some y1 ∧ Q.x = some x2 ∧ Q.y = some y2 ∧
    (x1 < x2 ∨ (x1 = x2 ∧ y1 < y2))

/-- A truncated remainder by a positive modulus lies in `(-p, p)`. -/
theorem tmod_bounds (t : Int) {p : Int} (hp : 0 < p) :
    -p < t.tmod p ∧ t.tmod p < p := by
  have h1 := natAbs_tmod t p
  have h2 : (t.tmod p).natAbs < p.natAbs := by
    rw [h1]
    exact Nat.mod_lt _ (Int.natAbs_pos.mpr (by omega))
  omega

/-- The double-normalization `((t % p) + p) % p` of the source lands in
`[0, p)` for positive `p`. -/
theorem norm_mem (t : Int) {p : Int} (hp : 0 < p) :
    0 ≤ (t.tmod p + p).tmod p ∧ (t.tmod p + p).tmod p < p := by
  have hb := tmod_bounds t hp
  exact ⟨Int.tmod_nonneg p (by omega), Int.tmod_lt_of_pos _ hp⟩

/-- `Point.new` on nonnegative inputs produces coordinates in `[0, p)`. -/
theorem new_affNorm (u v a b p : Int) (hu : 0 ≤ u) (hv : 0 ≤ v) (hp : 0 < p) :
    ∃ xv yv : Int, Point.new u v a b p = ⟨some xv, some yv, a, b, p⟩ ∧
      0 ≤ xv ∧ xv < p ∧ 0 ≤ yv ∧ yv < p :=
  ⟨u.tmod p, v.tmod p, rfl, Int.tmod_nonneg p hu, Int.tmod_lt_of_pos u hp,
    Int.tmod_nonneg p hv, Int.tmod_lt_of_pos v hp⟩

/-- `Point.new` acts as the identity on coordinates already in `[0, p)`. -/
theorem new_eq_of_range {x y p : Int} (a b : Int)
    (hx0 : 0 ≤ x) (hxp : x < p) (hy0 : 0 ≤ y) (hyp : y < p) :
    Point.new x y a b p = ⟨some x, some y, a, b, p⟩ := by
  unfold Point.new
  rw [Int.tmod_eq_of_lt hx0 hxp, Int.tmod_eq_of_lt hy0 hyp]

/-- `addCore` returns either the point at infinity or an affine point with
both coordinates normalized into `[0, p)`. -/
theorem addCore_cases (x1 y1 x2 y2 a b p : Int) (hp : 0 < p) :
    Point.addCore x1 y1 x2 y2 a b p = Point.infinity a b p ∨
      ∃ x3 y3 : Int, Point.addCore x1 y1 x2 y2 a b p = ⟨some x3, some y3, a, b, p⟩ ∧
        0 ≤ x3 ∧ x3 < p ∧ 0 ≤ y3 ∧ y3 < p := by
  unfold Point.addCore
  split_ifs with h h2
  · exact Or.inl rfl
  all_goals refine Or.inr (new_affNorm _ _ a b p ?_ ?_ hp)
  all_goals exact (norm_mem _ hp).1

/-!  Claim C1: coordinate normalization. -/

/-- C1 counterexample: `Point::new(-1, 0, 1, 1, 599)` stores the raw
truncated remainder `-1`, not `598`, because Rust `%` keeps the sign of the
dividend; so the constructor does not normalize negative inputs into
`[0, p)` as the claim states. -/
theorem C1_counterexample :
    (Point.new (-1) 0 1 1 599).x = some (-1) ∧
      (Point.new (-1) 0 1 1 599).x ≠ some 598 := by
  decide

/-- C1 (amended): for `p > 0` the constructor stores `x % p` and `y % p`
with the truncated remainder, so coordinates lie in `(-p, p)` and lie in
`[0, p)` exactly when the raw inputs are nonnegative; and the affine result
of `add` on two affine points with coordinates already in `[0, p)` has both
coordinates in `[0, p)`. -/
theorem C1_normalization (a b p : Int) (P Q : Point) (hp : 0 < p)
    (hP : P.affNorm) (hQ : Q.affNorm) (hPp : P.p = p) (hQp : Q.p = p) :
    (∀ u v : Int, ∃ uv vv : Int,
      Point.new u v a b p = ⟨some uv, some vv, a, b, p⟩ ∧
        -p < uv ∧ uv < p ∧ -p < vv ∧ vv < p ∧
        (0 ≤ u → 0 ≤ uv) ∧ (0 ≤ v → 0 ≤ vv)) ∧
    ((P.add Q).x ≠ none → (P.add Q).affNorm) := by
  constructor
  · intro u v
    obtain ⟨hu1, hu2⟩ := tmod_bounds u hp
    obtain ⟨hv1, hv2⟩ := tmod_bounds v hp
    exact ⟨u.tmod p, v.tmod p, rfl, hu1, hu2, hv1, hv2,
      fun h => Int.tmod_nonneg p h, fun h => Int.tmod_nonneg p h⟩
  · intro hne
    obtain ⟨x1, y1, hPx, hPy, hx1, hx1p, hy1, hy1p⟩ := hP
    obtain ⟨x2, y2, hQx, hQy, hx2, hx2p, hy2, hy2p⟩ := hQ
    have hadd : P.add Q = Point.addCore x1 y1 x2 y2 P.a P.b P.p := by
      unfold Point.add
      rw [hPx, hQx, hPy, hQy]
      rfl
    rw [hadd] at hne ⊢
    rcases addCore_cases x1 y1 x2 y2 P.a P.b P.p (hPp ▸ hp) with hc | hc
    · rw [hc] at hne
      exact absurd rfl hne
    · obtain ⟨x3, y3, heq, h1, h2, h3, h4⟩ := hc
      rw [heq]
      exact ⟨x3, y3, rfl, rfl, h1, h2, h3, h4⟩

/-- C1 witness: the amended statement applied to the curve points `(0, 1)`
and `(2, 4)` modulo `5`; their sum is affine with normalized coordinates. -/
theorem C1_witness :
    ((Point.mk (some 0) (some 1) 1 1 (5 : Int)).add ⟨some 2, some 4, 1, 1, 5⟩).affNorm :=
  (C1_normalization 1 1 5 ⟨some 0, some 1, 1, 1, 5⟩ ⟨some 2, some 4, 1, 1, 5⟩ (by decide)
    ⟨0, 1, rfl, rfl, by decide, by decide, by decide, by decide⟩
    ⟨2, 4, rfl, rfl, by decide, by decide, by decide, by decide⟩ rfl rfl).2 (by decide)

/-!  Claim C3: `mod_inverse`. -/

/-- C3: the code is wrong on negative arguments coprime to `p`.  For
`a = -1, p = 3` (with `gcd(-1, 3) = 1`) the code returns `1`, but
`(-1)·1 ≡ 2 (mod 3)`; the unique inverse in `[0, 3)` is `2`.  The spec
example `mod_inverse(2, 599) = 300` does hold.  The root cause is that
`extended_gcd` applied to a negative first argument can return the Bezout
certificate of `-gcd`, e.g. `extended_gcd(-1, 3) = (-1, 1, 0)`. -/
theorem C3_mod_inverse_bug :
    Point.mod_inverse (-1) 3 = 1 ∧
    ¬ ((-1) * Point.mod_inverse (-1) 3 % 3 = 1 % 3) ∧
    ((-1) * 2 % 3 = 1 % 3 ∧ 0 ≤ (2 : Int) ∧ (2 : Int) < 3) ∧
    extended_gcd (-1) 3 = (-1, 1, 0) ∧
    Point.mod_inverse 2 599 = 300 := by
  decide

/-!  Claim C5: identity law. -/

/-- C5: for every point `P` (affine or infinity, i.e. with coherent
coordinate fields) carrying curve parameters `(a, b, p)`,
`P + infinity(a, b, p) = P` and `infinity(a, b, p) + P = P`, as structural
equality of the record. -/
theorem C5_identity (P : Point) (a b p : Int) (hc : P.coherent)
    (ha : P.a = a) (hb : P.b = b) (hp : P.p = p) :
    P.add (Point.infinity a b p) = P ∧ (Point.infinity a b p).add P = P := by
  cases P with
  | mk px py pa pb pp =>
    subst ha hb hp
    refine ⟨?_, rfl⟩
    cases px with
    | none =>
      cases py with
      | none => rfl
      | some yv => simp [Point.coherent] at hc
    | some xv => rfl

/-- C5 witness: the identity law applied to the affine point `(5, 1)` on
the curve `(1, 1, 599)`. -/
theorem C5_witness :
    (Point.mk (some 5) (some 1) 1 1 (599 : Int)).add (Point.infinity 1 1 599) =
        ⟨some 5, some 1, 1, 1, 599⟩ ∧
      (Point.infinity 1 1 599).add ⟨some 5, some 1, 1, 1, (599 : Int)⟩ =
        ⟨some 5, some 1, 1, 1, 599⟩ :=
  C5_identity ⟨some 5, some 1, 1, 1, 599⟩ 1 1 599 rfl rfl rfl rfl

/-!  Claim C6: inverse law. -/

/-- C6: for prime positive `p` and an affine point `(x, y)` with
`0 ≤ x < p` and `0 < y < p`, adding `(x, y)` and `(x, p - y)` on the same
curve yields the point at infinity (the reflection case of `add`). -/
theorem C6_inverse (a b p x y : Int) (hpr : Prime p) (hp : 0 < p)
    (hx0 : 0 ≤ x) (hxp : x < p) (hy0 : 0 < y) (hyp : y < p) :
    (Point.new x y a b p).add (Point.new x (p - y) a b p) = Point.infinity a b p := by
  have hx : x.tmod p = x := Int.tmod_eq_of_lt hx0 hxp
  have hy : y.tmod p = y := Int.tmod_eq_of_lt (le_of_lt hy0) hyp
  have hpy : (p - y).tmod p = p - y := Int.tmod_eq_of_lt (by omega) (by omega)
  have hadd : (Point.new x y a b p).add (Point.new x (p - y) a b p) =
      Point.addCore (x.tmod p) (y.tmod p) (x.tmod p) ((p - y).tmod p) a b p := rfl
  rw [hadd, hx, hy, hpy]
  unfold Point.addCore
  rw [if_pos ⟨rfl, by rw [show y + (p - y) = p by ring, Int.tmod_self]⟩]

/-- C6 witness: `(0, 1) + (0, 5 - 1) = infinity` on the curve `(1, 1, 5)`. -/
theorem C6_witness :
    (Point.new 0 1 1 1 5).add (Point.new 0 (5 - 1) 1 1 5) = Point.infinity 1 1 5 :=
  C6_inverse 1 1 5 0 1 (by norm_num) (by decide) (by decide) (by decide) (by decide) (by decide)

/-!  Claim C10: variant coherence and panic freedom of the unwraps. -/

/-- `addCore` always returns a point with both fields `some` or both
`none`. -/
theorem addCore_coherent (x1 y1 x2 y2 a b p : Int) :
    (Point.addCore x1 y1 x2 y2 a b p).coherent := by
  unfold Point.addCore
  split_ifs <;> rfl

/-- C10: every point produced by `Point::new`, `Point::infinity`, by `add`
on coherent arguments, or by `find_points` has its `x` and `y` fields
either both `some` or both `none`; consequently `addChecked` (which models
the `unwrap` panics of `add`) never returns `none` on such points and
agrees with `add`. -/
theorem C10_coherence :
    (∀ x y a b p : Int, (Point.new x y a b p).coherent) ∧
    (∀ a b p : Int, (Point.infinity a b p).coherent) ∧
    (∀ P Q : Point, P.coherent → Q.coherent →
      (P.add Q).coherent ∧ P.addChecked Q = some (P.add Q)) ∧
    (∀ a b p : Int, ∀ P ∈ find_points a b p, P.coherent) := by
  refine ⟨fun _ _ _ _ _ => rfl, fun _ _ _ => rfl, ?_, ?_⟩
  · intro P Q hP hQ
    cases P with
    | mk px py pa pb pp =>
      cases Q with
      | mk qx qy qa qb qp =>
        cases px with
        | none => exact ⟨hQ, rfl⟩
        | some x1 =>
          cases py with
          | none => simp [Point.coherent] at hP
          | some y1 =>
            cases qx with
            | none => exact ⟨hP, rfl⟩
            | some x2 =>
              cases qy with
              | none => simp [Point.coherent] at hQ
              | some y2 => exact ⟨addCore_coherent x1 y1 x2 y2 pa pb pp, rfl⟩
  · intro a b p P hP
    unfold find_points at hP
    rw [List.mem_flatMap] at hP
    obtain ⟨xn, _, hP⟩ := hP
    rw [List.mem_filterMap] at hP
    obtain ⟨yn, _, hP⟩ := hP
    split_ifs at hP with h
    cases hP
    rfl

/-- C10 witness: the coherence facts instantiated at concrete points, and
the panic-free agreement of `addChecked` with `add` at the points `(3, 1)`
and `(2, 4)` of the curve `(1, 1, 5)`. -/
theorem C10_witness :
    (Point.new 3 1 1 1 (5 : Int)).coherent ∧
    (Point.infinity 1 1 (5 : Int)).coherent ∧
    ((Point.new 3 1 1 1 5).add (Point.new 2 4 1 1 5)).coherent ∧
    (Point.new 3 1 1 1 5).addChecked (Point.new 2 4 1 1 5) =
      some ((Point.new 3 1 1 1 5).add (Point.new 2 4 1 1 5)) ∧
    (Point.new 2 1 1 1 5).coherent :=
  ⟨C10_coherence.1 3 1 1 1 5, C10_coherence.2.1 1 1 5,
    (C10_coherence.2.2.1 (Point.new 3 1 1 1 5) (Point.new 2 4 1 1 5) rfl rfl).1,
    (C10_coherence.2.2.1 (Point.new 3 1 1 1 5) (Point.new 2 4 1 1 5) rfl rfl).2,
    C10_coherence.2.2.2 1 1 5 (Point.new 2 1 1 1 5) (by decide)⟩

/-!  Claim C4: the argument of `mod_inverse` inside `add`. -/

/-- A multiple of `p` strictly between `-p` and `p` is zero. -/
theorem eq_zero_of_dvd_of_abs_lt {p t : Int} (hp : 0 < p)
    (h : p ∣ t) (h1 : -p < t) (h2 : t < p) : t = 0 := by
  obtain ⟨k, rfl⟩ := h
  rcases lt_trichotomy k 0 with hk | hk | hk
  · nlinarith
  · simp [hk]
  · nlinarith

/-- C4: for prime positive `p` and two affine points of the data model
(coordinates normalized into `[0, p)` and satisfying the curve equation
mod `p`), whenever `add` reaches a slope computation the argument it
passes to `mod_inverse` — `2*y1` in the doubling branch, `x2 - x1` in the
general branch, as recorded by `addDivisor` — is not congruent to `0`
modulo `p`. -/
theorem C4_divisor_not_zero (a b p x1 y1 x2 y2 d : Int) (hpr : Prime p) (hp : 0 < p)
    (hx1 : 0 ≤ x1) (hx1p : x1 < p) (hy1 : 0 ≤ y1) (hy1p : y1 < p)
    (hx2 : 0 ≤ x2) (hx2p : x2 < p) (hy2 : 0 ≤ y2) (hy2p : y2 < p)
    (hc1 : p ∣ y1 * y1 - (x1 * x1 * x1 + a * x1 + b))
    (hc2 : p ∣ y2 * y2 - (x2 * x2 * x2 + a * x2 + b))
    (hd : (Point.mk (some x1) (some y1) a b p).addDivisor ⟨some x2, some y2, a, b, p⟩ = some d) :
    ¬ p ∣ d := by
  have hDiv : (Point.mk (some x1) (some y1) a b p).addDivisor ⟨some x2, some y2, a, b, p⟩ =
      (if x1 = x2 ∧ (y1 + y2).tmod p = 0 then none
       else if x1 = x2 ∧ y1 = y2 then some (2 * y1)
       else some (x2 - x1)) := rfl
  rw [hDiv] at hd
  split_ifs at hd with h1 h2
  · -- doubling branch: d = 2 * y1 and the reflection guard failed
    cases hd
    intro hdvd
    apply h1
    refine ⟨h2.1, ?_⟩
    rw [← h2.2, show y1 + y1 = 2 * y1 by ring]
    exact Int.tmod_eq_zero_of_dvd hdvd
  · -- general branch: d = x2 - x1
    cases hd
    intro hdvd
    have hxx : x2 - x1 = 0 :=
      eq_zero_of_dvd_of_abs_lt hp hdvd (by omega) (by omega)
    have hx12 : x1 = x2 := by omega
    -- both points on the curve with the same x: p divides (y1-y2)(y1+y2)
    have hyy : p ∣ (y1 - y2) * (y1 + y2) := by
      have h3 : (y1 - y2) * (y1 + y2) =
          (y1 * y1 - (x1 * x1 * x1 + a * x1 + b)) -
          (y2 * y2 - (x2 * x2 * x2 + a * x2 + b)) := by
        rw [hx12]
        ring
      rw [h3]
      exact dvd_sub hc1 hc2
    rcases (Prime.dvd_mul hpr).mp hyy with hcase | hcase
    · have hne : y1 ≠ y2 := fun he => h2 ⟨hx12, he⟩
      have : y1 - y2 = 0 :=
        eq_zero_of_dvd_of_abs_lt hp hcase (by omega) (by omega)
      omega
    · apply h1
      refine ⟨hx12, ?_⟩
      exact Int.tmod_eq_zero_of_dvd hcase
/-- C4 witness: for the curve points `(0, 1)` and `(2, 4)` modulo `5`,
`addDivisor` yields `2 - 0` and `5` does not divide it. -/
theorem C4_witness :
    (Point.mk (some 0) (some 1) 1 1 (5 : Int)).addDivisor ⟨some 2, some 4, 1, 1, 5⟩ =
        some (2 - 0) ∧
      ¬ (5 : Int) ∣ (2 - 0) :=
  ⟨by decide,
    C4_divisor_not_zero 1 1 5 0 1 2 4 (2 - 0) (by norm_num) (by decide)
      (by decide) (by decide) (by decide) (by decide) (by decide) (by decide)
      (by decide) (by decide) (by decide) (by decide) (by decide)⟩

/-!  Claims C7 and C8: commutativity and closure fail on real curve points
because `mod_inverse` is wrong on negative divisors (see C3). -/

/-- C7: the code is wrong.  `(3, 1)` and `(2, 4)` are both produced by
`find_points 1 1 5` (they lie on `y² = x³ + x + 1 mod 5`), yet
`(3,1) + (2,4) = (4, 1)` while `(2,4) + (3,1) = (4, 2)`: the general branch
computes the slope with `mod_inverse(x2 - x1, p)`, and for the negative
divisor `2 - 3 = -1` the inverse is wrong (C3), so `add` is not
commutative. -/
theorem C7_commutativity_failure :
    (Point.new 3 1 1 1 5) ∈ find_points 1 1 5 ∧
    (Point.new 2 4 1 1 5) ∈ find_points 1 1 5 ∧
    (Point.new 3 1 1 1 5).add (Point.new 2 4 1 1 5) = ⟨some 4, some 1, 1, 1, 5⟩ ∧
    (Point.new 2 4 1 1 5).add (Point.new 3 1 1 1 5) = ⟨some 4, some 2, 1, 1, 5⟩ ∧
    (Point.new 3 1 1 1 5).add (Point.new 2 4 1 1 5) ≠
      (Point.new 2 4 1 1 5).add (Point.new 3 1 1 1 5) := by
  decide

/-- C8: the code is wrong.  `(3, 1)` and `(2, 4)` are both produced by
`find_points 1 1 5`, their sum is the affine point `(4, 1)`, and `(4, 1)`
does not satisfy the curve equation: `1² = 1` but `4³ + 4 + 1 ≡ 4 (mod 5)`.
Same root cause as C7: `mod_inverse` on the negative divisor `-1`. -/
theorem C8_closure_failure :
    (Point.new 3 1 1 1 5) ∈ find_points 1 1 5 ∧
    (Point.new 2 4 1 1 5) ∈ find_points 1 1 5 ∧
    (Point.new 3 1 1 1 5).add (Point.new 2 4 1 1 5) = ⟨some 4, some 1, 1, 1, 5⟩ ∧
    (Point.new 3 1 1 1 5).add (Point.new 2 4 1 1 5) ≠ Point.infinity 1 1 5 ∧
    ¬ (5 : Int) ∣ (1 * 1 - (4 * 4 * 4 + 1 * 4 + 1)) := by
  decide

/-!  Claim C9: termination and depth of the `extended_gcd` recursion. -/

/-- Fuel-indexed counter of the recursive calls `extended_gcd` makes,
following exactly the same recursion `(a, b) → (b % a, a)`. -/
def egcdDepthFuel : Nat → Int → Int → Nat
  | 0, _, _ => 0
  | n + 1, a, b => if a = 0 then 0 else egcdDepthFuel n (b.tmod a) a + 1

/-- Number of recursive calls performed by `extended_gcd a b`. -/
def extended_gcd_depth (a b : Int) : Nat :=
  egcdDepthFuel (a.natAbs + 1) a b

/-- Any fuel exceeding `|a|` computes the same value of `egcdDepthFuel`. -/
theorem egcdDepthFuel_eq (n m : Nat) (a b : Int) (hn : a.natAbs < n) (hm : a.natAbs < m) :
    egcdDepthFuel n a b = egcdDepthFuel m a b := by
  induction n generalizing m a b with
  | zero => omega
  | succ k ih =>
    cases m with
    | zero => omega
    | succ j =>
      by_cases h : a = 0
      · simp [egcdDepthFuel, h]
      · have hlt := natAbs_tmod_lt a b h
        simp only [egcdDepthFuel, h, if_false]
        rw [ih j (b.tmod a) a (by omega) (by omega)]

/-- `extended_gcd_depth` satisfies the recurrence of the source recursion. -/
theorem extended_gcd_depth_eq (a b : Int) :
    extended_gcd_depth a b =
      if a = 0 then 0 else extended_gcd_depth (b.tmod a) a + 1 := by
  show egcdDepthFuel (a.natAbs + 1) a b = _
  by_cases h : a = 0
  · simp [egcdDepthFuel, h]
  · have hlt := natAbs_tmod_lt a b h
    show (if a = 0 then 0 else egcdDepthFuel a.natAbs (b.tmod a) a + 1) = _
    rw [if_neg h, if_neg h,
      egcdDepthFuel_eq a.natAbs ((b.tmod a).natAbs + 1) (b.tmod a) a (by omega) (by omega)]
    rfl

/-- Two consecutive steps of the Euclid recursion at least halve the first
argument: `|a % (b % a)| < |a| / 2` in the strict sense `2·|a%(b%a)| < |a|`. -/
theorem two_step_halving {al gm : Nat} (hg0 : 0 < gm) (hga : gm < al) :
    2 * (al % gm) < al := by
  rcases le_or_lt (2 * gm) al with hc | hc
  · have := Nat.mod_lt al hg0
    omega
  · have h1 : al % gm = al - gm := by
      rw [Nat.mod_eq_sub_mod (by omega)]
      exact Nat.mod_eq_of_lt (by omega)
    omega

/-- Logarithmic bound on the depth, by strong induction with the two-step
halving argument: a chain starting from a first argument of magnitude at
most `n ≥ 1` makes at most `2·log₂ n + 2` recursive calls. -/
theorem depth_le_log (n : Nat) : ∀ a b : Int, a ≠ 0 → a.natAbs ≤ n →
    extended_gcd_depth a b ≤ 2 * Nat.log 2 n + 2 := by
  induction n using Nat.strong_induction_on with
  | _ n ih =>
    intro a b ha hn
    rw [extended_gcd_depth_eq, if_neg ha]
    by_cases hg : b.tmod a = 0
    · rw [hg, extended_gcd_depth_eq]
      simp
    · rw [extended_gcd_depth_eq, if_neg hg]
      by_cases hd : a.tmod (b.tmod a) = 0
      · rw [hd, extended_gcd_depth_eq]
        simp
      · have hga : (b.tmod a).natAbs < a.natAbs := natAbs_tmod_lt a b ha
        have hdg : (a.tmod (b.tmod a)).natAbs < (b.tmod a).natAbs :=
          natAbs_tmod_lt (b.tmod a) a hg
        have hdv : (a.tmod (b.tmod a)).natAbs = a.natAbs % (b.tmod a).natAbs :=
          natAbs_tmod a (b.tmod a)
        have hhalf : 2 * (a.tmod (b.tmod a)).natAbs < a.natAbs := by
          rw [hdv]
          exact two_step_halving (Int.natAbs_pos.mpr hg) hga
        have hd1 : 1 ≤ (a.tmod (b.tmod a)).natAbs := Int.natAbs_pos.mpr hd
        have hn3 : 3 ≤ n := by omega
        have hd2 : (a.tmod (b.tmod a)).natAbs ≤ n / 2 := by omega
        have hrec := ih (n / 2) (by omega) (a.tmod (b.tmod a)) (b.tmod a) hd hd2
        have hlog1 := Nat.log_div_base 2 n
        have hlog2 := Nat.log_pos (b := 2) (by omega) (by omega : 2 ≤ n)
        omega

/-- C9: the inner `extended_gcd` recursion is total — every recursive call
strictly decreases `|a|` — and for `p > 0` its recursion depth on input
`(a, p)` is at most `2·log₂ p + 3`, i.e. `O(log p)`. -/
theorem C9_termination_depth (a p : Int) (hp : 0 < p) :
    (∀ a' b' : Int, a' ≠ 0 → (Int.tmod b' a').natAbs < a'.natAbs) ∧
      extended_gcd_depth a p ≤ 2 * Nat.log 2 p.toNat + 3 := by
  refine ⟨fun a' b' h => natAbs_tmod_lt a' b' h, ?_⟩
  rw [extended_gcd_depth_eq]
  by_cases ha : a = 0
  · simp [ha]
  · rw [if_neg ha]
    by_cases hg : p.tmod a = 0
    · rw [hg, extended_gcd_depth_eq]
      simp
    · have h1 : (p.tmod a).natAbs ≤ p.toNat := by
        have h2 := natAbs_tmod p a
        have h3 := Nat.mod_le p.natAbs a.natAbs
        omega
      have := depth_le_log p.toNat (p.tmod a) a hg h1
      omega

/-- C9 witness: the statement applied to `a = 2, p = 599`. -/
theorem C9_witness :
    (∀ a' b' : Int, a' ≠ 0 → (Int.tmod b' a').natAbs < a'.natAbs) ∧
      extended_gcd_depth 2 599 ≤ 2 * Nat.log 2 (599 : Int).toNat + 3 :=
  C9_termination_depth 2 599 (by decide)

/-!  Claim C2: `find_points` enumeration. -/

/-- C2 counterexample: for `a = 0, b = -1, p = 2` the point `(0, 1)` is a
genuine solution of `y² ≡ x³ + a·x + b (mod 2)` with both coordinates in
`[0, 2)`, yet `find_points` omits it: the code compares against
`rhs = (x³ + a·x + b) % p` computed with the truncated remainder, which is
`-1` (not `1`) at `x = 0`, and `(y*y) % p` is never negative. -/
theorem C2_counterexample :
    Point.mk (some 0) (some 1) 0 (-1) 2 ∉ find_points 0 (-1) 2 ∧
      (0 : Int) ≤ 0 ∧ (0 : Int) < 2 ∧ (0 : Int) ≤ 1 ∧ (1 : Int) < 2 ∧
      (2 : Int) ∣ (1 * 1 - (0 * 0 * 0 + 0 * 0 + (-1))) := by
  decide

/-- Membership in `find_points` in terms of integer coordinates and the
raw comparison performed by the source. -/
theorem mem_find_points_iff (a b p : Int) (hp : 0 < p) (P : Point) :
    P ∈ find_points a b p ↔
      ∃ x y : Int, 0 ≤ x ∧ x < p ∧ 0 ≤ y ∧ y < p ∧
        (y * y).tmod p = (x * x * x + a * x + b).tmod p ∧
        P = ⟨some x, some y, a, b, p⟩ := by
  unfold find_points
  rw [List.mem_flatMap]
  constructor
  · rintro ⟨xn, hxn, hP⟩
    rw [List.mem_filterMap] at hP
    obtain ⟨yn, hyn, hif⟩ := hP
    rw [List.mem_range] at hxn hyn
    have hx0 : (0 : Int) ≤ (xn : Int) := by omega
    have hy0 : (0 : Int) ≤ (yn : Int) := by omega
    have hxI : (xn : Int) < p := by omega
    have hyI : (yn : Int) < p := by omega
    split_ifs at hif with hc
    cases hif
    exact ⟨xn, yn, hx0, hxI, hy0, hyI, hc, (new_eq_of_range a b hx0 hxI hy0 hyI).symm ▸ rfl⟩
  · rintro ⟨x, y, hx0, hxp, hy0, hyp, hc, rfl⟩
    refine ⟨x.toNat, ?_, ?_⟩
    · rw [List.mem_range]
      omega
    · rw [List.mem_filterMap]
      refine ⟨y.toNat, ?_, ?_⟩
      · rw [List.mem_range]
        omega
      · have hxc : ((x.toNat : Nat) : Int) = x := Int.toNat_of_nonneg hx0
        have hyc : ((y.toNat : Nat) : Int) = y := Int.toNat_of_nonneg hy0
        rw [hxc, hyc, if_pos hc, new_eq_of_range a b hx0 hxp hy0 hyp]

/-- Under nonnegative `a`, `b` (and coordinates in range) the raw source
comparison coincides with the curve congruence modulo `p`. -/
theorem cond_iff_dvd (a b p x y : Int) (ha : 0 ≤ a) (hb : 0 ≤ b) (hp : 0 < p)
    (hx : 0 ≤ x) (hy : 0 ≤ y) :
    (y * y).tmod p = (x * x * x + a * x + b).tmod p ↔
      p ∣ (y * y - (x * x * x + a * x + b)) := by
  have h1 : 0 ≤ y * y := mul_nonneg hy hy
  have h2 : 0 ≤ x * x * x + a * x + b := by
    have h3 : 0 ≤ x * x * x := mul_nonneg (mul_nonneg hx hx) hx
    have h4 : 0 ≤ a * x := mul_nonneg ha hx
    omega
  rw [Int.tmod_eq_emod h1 (le_of_lt hp), Int.tmod_eq_emod h2 (le_of_lt hp),
    Int.emod_eq_emod_iff_emod_sub_eq_zero]
  exact (Int.dvd_iff_emod_eq_zero).symm

/-- `List.range` is pairwise increasing with both elements in range. -/
theorem pairwise_range_bdd (n : Nat) :
    (List.range n).Pairwise (fun i j => i < j ∧ i < n ∧ j < n) :=
  (List.pairwise_lt_range n).imp_of_mem (by
    intro i j hi hj hij
    exact ⟨hij, List.mem_range.mp hi, List.mem_range.mp hj⟩)

/-- Every member of one inner `filterMap` row of `find_points` is the
constructed point for some `y` index below `p`. -/
theorem mem_inner_shape (a b p : Int) (xn : Nat) (P : Point)
    (hP : P ∈ (List.range p.toNat).filterMap (fun (yn : Nat) =>
      if ((yn : Int) * (yn : Int)).tmod p =
          ((xn : Int) * (xn : Int) * (xn : Int) + a * (xn : Int) + b).tmod p then
        some (Point.new (xn : Int) (yn : Int) a b p)
      else
        none)) :
    ∃ yn : Nat, yn < p.toNat ∧ P = Point.new (xn : Int) (yn : Int) a b p := by
  rw [List.mem_filterMap] at hP
  obtain ⟨yn, hyn, hif⟩ := hP
  rw [List.mem_range] at hyn
  split_ifs at hif with hc
  cases hif
  exact ⟨yn, hyn, rfl⟩

/-- One inner row of `find_points` is sorted strictly by the `y`
coordinate (with the common `x` coordinate fixed). -/
theorem inner_pairwise (a b p : Int) (hp : 0 < p) (xn : Nat) (hxn : xn < p.toNat) :
    ((List.range p.toNat).filterMap (fun (yn : Nat) =>
      if ((yn : Int) * (yn : Int)).tmod p =
          ((xn : Int) * (xn : Int) * (xn : Int) + a * (xn : Int) + b).tmod p then
        some (Point.new (xn : Int) (yn : Int) a b p)
      else
        none)).Pairwise ptKeyLt := by
  refine List.Pairwise.filterMap _ ?_ (pairwise_range_bdd p.toNat)
  intro yn yn' hR P hP Q hQ
  obtain ⟨hlt, hyn, hyn'⟩ := hR
  have hx0 : (0 : Int) ≤ (xn : Int) := by omega
  have hxI : (xn : Int) < p := by omega
  split_ifs at hP hQ with hc hc2
  · rw [Option.mem_some_iff] at hP hQ
    subst hP
    subst hQ
    rw [new_eq_of_range a b hx0 hxI (by omega) (by omega : (yn : Int) < p),
      new_eq_of_range a b hx0 hxI (by omega) (by omega : (yn' : Int) < p)]
    exact ⟨(xn : Int), (yn : Int), (xn : Int), (yn' : Int), rfl, rfl, rfl, rfl,
      Or.inr ⟨rfl, by omega⟩⟩
  all_goals simp at hP hQ

/-- `find_points` is sorted strictly by `x` and then by `y`. -/
theorem find_points_pairwise (a b p : Int) (hp : 0 < p) :
    (find_points a b p).Pairwise ptKeyLt := by
  unfold find_points
  rw [List.pairwise_flatMap]
  refine ⟨fun xn hxn => inner_pairwise a b p hp xn (List.mem_range.mp hxn), ?_⟩
  refine (pairwise_range_bdd p.toNat).imp ?_
  intro xn xn' hR P hP Q hQ
  obtain ⟨hlt, hxn, hxn'⟩ := hR
  obtain ⟨yn, hyn, rfl⟩ := mem_inner_shape a b p xn P hP
  obtain ⟨yn', hyn', rfl⟩ := mem_inner_shape a b p xn' Q hQ
  rw [new_eq_of_range a b (by omega) (by omega : (xn : Int) < p) (by omega)
      (by omega : (yn : Int) < p),
    new_eq_of_range a b (by omega) (by omega : (xn' : Int) < p) (by omega)
      (by omega : (yn' : Int) < p)]
  exact ⟨(xn : Int), (yn : Int), (xn' : Int), (yn' : Int), rfl, rfl, rfl, rfl,
    Or.inl (by omega)⟩

/-- The strict key order is irreflexive, so pairwise-ordered lists of
points have no duplicates. -/
theorem ptKeyLt_ne {P Q : Point} (h : ptKeyLt P Q) : P ≠ Q := by
  obtain ⟨x1, y1, x2, y2, h1, h2, h3, h4, h5⟩ := h
  intro he
  subst he
  rw [h1] at h3
  rw [h2] at h4
  cases h3
  cases h4
  rcases h5 with h | ⟨_, h⟩ <;> omega

/-- C2 (amended): for `p > 0` and nonnegative `a`, `b` — the claim fails
for negative coefficients, see the counterexample — `find_points a b p`
contains exactly the points `(x, y)` with `0 ≤ x < p`, `0 ≤ y < p` and
`y² ≡ x³ + a·x + b (mod p)`, with no duplicates, ordered by strictly
increasing `x` and, within equal `x`, strictly increasing `y`. -/
theorem C2_find_points (a b p : Int) (ha : 0 ≤ a) (hb : 0 ≤ b) (hp : 0 < p) :
    (∀ P : Point, P ∈ find_points a b p ↔
      ∃ x y : Int, P = ⟨some x, some y, a, b, p⟩ ∧ 0 ≤ x ∧ x < p ∧ 0 ≤ y ∧ y < p ∧
        p ∣ (y * y - (x * x * x + a * x + b))) ∧
    (find_points a b p).Pairwise ptKeyLt ∧
    (find_points a b p).Nodup := by
  refine ⟨?_, find_points_pairwise a b p hp,
    (find_points_pairwise a b p hp).imp ptKeyLt_ne⟩
  intro P
  rw [mem_find_points_iff a b p hp P]
  constructor
  · rintro ⟨x, y, hx0, hxp, hy0, hyp, hc, rfl⟩
    exact ⟨x, y, rfl, hx0, hxp, hy0, hyp, (cond_iff_dvd a b p x y ha hb hp hx0 hy0).mp hc⟩
  · rintro ⟨x, y, rfl, hx0, hxp, hy0, hyp, hdvd⟩
    exact ⟨x, y, hx0, hxp, hy0, hyp, (cond_iff_dvd a b p x y ha hb hp hx0 hy0).mpr hdvd, rfl⟩

/-- C2 witness: the amended statement applied to `a = 1, b = 1, p = 5`. -/
theorem C2_witness :
    (∀ P : Point, P ∈ find_points 1 1 5 ↔
      ∃ x y : Int, P = ⟨some x, some y, 1, 1, 5⟩ ∧ 0 ≤ x ∧ x < 5 ∧ 0 ≤ y ∧ y < 5 ∧
        (5 : Int) ∣ (y * y - (x * x * x + 1 * x + 1))) ∧
    (find_points 1 1 5).Pairwise ptKeyLt ∧
    (find_points 1 1 5).Nodup :=
  C2_find_points 1 1 5 (by decide) (by decide) (by decide)
